import Mathlib

set_option maxRecDepth 65536

/-!
Verification of the TeleScout match-and-forward pipeline.

This file embeds, in Lean, the pure core of the repository:

* `src/keyword_matcher.py` — keyword normalization, whole-word matching
  (the compiled patterns `\b<escaped>\b` with `IGNORECASE`) and the match
  summary string.
* `src/utils.py` — `format_datetime` with its ordinal day suffix.
* `src/rate_limiter.py` — the two-tier sliding one-hour window limiter.
* `src/telegram_client.py` — `_process_message` (the gate sequence: text,
  match, dedup, rate limit, per-source spacing, send with flood-wait
  handling, dedup compaction) and the message composition of
  `_forward_message` (header + truncation).

Machine integers are modelled as `Int`/`Nat` (Python integers are unbounded,
timestamps are modelled as integer seconds).  The nondeterministic iteration
order of the Python `set` used for the dedup store is made explicit: the
enumeration `list(self._forwarded_messages)` taken during compaction is an
input (`enum`), constrained where needed to be a permutation of the set's
elements.  The outcome of the platform send (success, `FloodWaitError d`,
other exception) is likewise an explicit input of each processing step.
-/

/-! ## Keyword matcher (`src/keyword_matcher.py`) -/

/-- Python `\w` word characters (ASCII part): letters, digits, underscore. -/
def isWordChar (c : Char) : Bool := c.isAlphanum || c == '_'

/-- The character at position `i` of the text, tested for word-ness;
positions outside the text count as non-word. -/
def wordAt (cs : List Char) (i : Nat) : Bool :=
  match cs[i]? with
  | some c => isWordChar c
  | none => false

/-- Regex `\b` (word boundary) holds at position `i` (between `cs[i-1]` and
`cs[i]`) iff exactly one of the two neighbouring positions is a word char. -/
def boundary (cs : List Char) (i : Nat) : Bool :=
  (if i = 0 then false else wordAt cs (i - 1)) != wordAt cs i

/-- The pattern `\b<kw>\b` (with `re.escape`, so `kw` is matched literally,
case-insensitively) matches the text at position `i`. -/
def matchesAt (cs kw : List Char) (i : Nat) : Bool :=
  decide (i + kw.length ≤ cs.length) && boundary cs i && boundary cs (i + kw.length) &&
    (((cs.drop i).take kw.length).map Char.toLower == kw.map Char.toLower)

/-- `pattern.search(text)` for the compiled pattern of keyword `kw`:
true iff the pattern matches at some position of the text. -/
def patternSearch (text kw : String) : Bool :=
  (List.range (text.data.length + 1)).any (matchesAt text.data kw.data)

/-- Python `str.lower()` (ASCII part). -/
def pyLower (s : String) : String := String.mk (s.data.map Char.toLower)

/-- Python `str.strip()`: drop leading and trailing whitespace. -/
def pyStrip (s : String) : String :=
  String.mk (((s.data.dropWhile Char.isWhitespace).reverse.dropWhile Char.isWhitespace).reverse)

/-- `kw.lower().strip()` — the normalization applied to each keyword in
`KeywordMatcher.__init__`. -/
def normalizeKeyword (kw : String) : String := pyStrip (pyLower kw)

/-- `self.keywords = [kw.lower().strip() for kw in keywords]` — note that no
keyword is discarded: every input keyword yields one (possibly empty)
normalized keyword and one compiled pattern. -/
def mkKeywords (keywords : List String) : List String := keywords.map normalizeKeyword

/-- `KeywordMatcher.has_match`: false on empty text, else true iff some
pattern finds a match. -/
def has_match (kws : List String) (text : String) : Bool :=
  if text.data.isEmpty then false
  else kws.any (fun kw => patternSearch text kw)

/-- `KeywordMatcher.find_matches`: empty on empty text, else the (normalized)
keywords whose pattern matches, in configured order. -/
def find_matches (kws : List String) (text : String) : List String :=
  if text.data.isEmpty then []
  else kws.filter (fun kw => patternSearch text kw)

/-- Python `", ".join(seq)`. -/
def joinComma : List String → String
  | [] => ""
  | [x] => x
  | x :: xs => x ++ ", " ++ joinComma xs

/-- `KeywordMatcher.get_match_summary`. -/
def get_match_summary (kws : List String) (text : String) : Option String :=
  match find_matches kws text with
  | [] => none
  | [m] => some ( "Keyword matched: '" ++ m ++ "'" )
  | ms =>
    let shown := joinComma ((ms.take 3).map (fun m => "'" ++ m ++ "'" ))
    let extra := if 3 < ms.length then " (+" ++ toString (ms.length - 3) ++ " more)" else ""
    some ( "Keywords matched: " ++ shown ++ extra)

/-! ## Date formatting (`src/utils.py`) -/

/-- The day suffix computed by `format_datetime`: `th` for 10..13, else by
`{1:'st',2:'nd',3:'rd'}.get(day % 10, 'th')`. -/
def ordinalSuffix (day : Nat) : String :=
  if 10 ≤ day ∧ day ≤ 13 then "th"
  else if day % 10 = 1 then "st"
  else if day % 10 = 2 then "nd"
  else if day % 10 = 3 then "rd"
  else "th"

/-- `strftime` `%B`: full month name. -/
def monthName : Nat → String
  | 1 => "January"
  | 2 => "February"
  | 3 => "March"
  | 4 => "April"
  | 5 => "May"
  | 6 => "June"
  | 7 => "July"
  | 8 => "August"
  | 9 => "September"
  | 10 => "October"
  | 11 => "November"
  | 12 => "December"
  | _ => ""

/-- Zero-pad to two digits (`%I`, `%M`). -/
def pad2 (n : Nat) : String := if n < 10 then "0" ++ toString n else toString n

/-- Zero-pad to four digits (`%Y`). -/
def pad4 (n : Nat) : String :=
  if n < 10 then "000" ++ toString n
  else if n < 100 then "00" ++ toString n
  else if n < 1000 then "0" ++ toString n
  else toString n

/-- `%I`: hour on a 12-hour clock, 0 ↦ 12, 13 ↦ 1, … -/
def hour12 (h : Nat) : Nat := if h % 12 = 0 then 12 else h % 12

/-- `%p`: AM for hours 0..11, PM for 12..23. -/
def ampm (h : Nat) : String := if h < 12 then "AM" else "PM"

/-- `format_datetime(dt)` = `f"{day}{suffix} %B %Y %I:%M%p"`. -/
def format_datetime (day month year hour minute : Nat) : String :=
  toString day ++ ordinalSuffix day ++ " " ++ monthName month ++ " " ++ pad4 year ++ " " ++
    pad2 (hour12 hour) ++ ":" ++ pad2 minute ++ ampm hour

example : format_datetime 5 8 2025 17 59 = "5th August 2025 05:59PM" := by decide
example : has_match (mkKeywords ["CAT "]) "a cat sat" = true := by decide
example : has_match (mkKeywords ["cat"]) "category" = false := by decide
example : has_match (mkKeywords [" "]) "hi" = true := by decide

/-! ## Rate limiter (`src/rate_limiter.py`)

Timestamps are integer UTC seconds.  The `defaultdict` of per-channel deques
is an association list; a missing channel reads as the empty queue. -/

structure RateLimiter where
  max_per_hour : Nat
  max_per_channel_per_hour : Nat
  global_messages : List Int
  channel_messages : List (Int × List Int)

/-- `_cleanup_old_messages`: pop from the front while the head is older than
one hour (`queue[0] < current_time - 3600`). -/
def cleanup_old_messages (q : List Int) (now : Int) : List Int :=
  q.dropWhile (fun x => decide (x < now - 3600))

/-- Read a channel's queue from the `defaultdict` (missing ⇒ empty). -/
def lookupChannel (m : List (Int × List Int)) (c : Int) : List Int :=
  match m.find? (fun p => p.1 == c) with
  | some p => p.2
  | none => []

/-- Store a channel's queue (update in place, or append a new entry). -/
def setChannel (m : List (Int × List Int)) (c : Int) (q : List Int) :
    List (Int × List Int) :=
  if m.any (fun p => p.1 == c) then
    m.map (fun p => if p.1 == c then (c, q) else p)
  else m ++ [(c, q)]

/-- `RateLimiter.can_send_message`: prune the global queue; reject if it has
reached `max_per_hour`; otherwise, when a channel id is given, prune that
channel's queue and reject if it has reached `max_per_channel_per_hour`.
Returns the decision together with the mutated limiter (pruning persists). -/
def can_send_message (rl : RateLimiter) (channel_id : Option Int) (now : Int) :
    Bool × RateLimiter :=
  let g := cleanup_old_messages rl.global_messages now
  if rl.max_per_hour ≤ g.length then
    (false, { rl with global_messages := g })
  else
    match channel_id with
    | none => (true, { rl with global_messages := g })
    | some c =>
      let q := cleanup_old_messages (lookupChannel rl.channel_messages c) now
      let rl' : RateLimiter :=
        { rl with global_messages := g, channel_messages := setChannel rl.channel_messages c q }
      if rl.max_per_channel_per_hour ≤ q.length then (false, rl') else (true, rl')

/-- `RateLimiter.record_message`: append `now` to the global queue and, when a
channel id is given, to that channel's queue. -/
def record_message (rl : RateLimiter) (channel_id : Option Int) (now : Int) :
    RateLimiter :=
  let rl1 := { rl with global_messages := rl.global_messages ++ [now] }
  match channel_id with
  | none => rl1
  | some c =>
    { rl1 with channel_messages :=
        setChannel rl1.channel_messages c (lookupChannel rl1.channel_messages c ++ [now]) }

/-! ## Client state and `_process_message` (`src/telegram_client.py`) -/

/-- Dedup identity: `(channel_id, message.id)`; `channel_id` is `none` when
`message.peer_id` has no `channel_id` attribute. -/
abbrev ForwardKey := Option Int × Int

/-- `self._max_tracked_messages`. -/
def max_tracked_messages : Nat := 10000

/-- Lines 222–228 of `telegram_client.py`: add the key to the forwarded set;
if the size now exceeds `_max_tracked_messages`, keep
`list(self._forwarded_messages)[-_max_tracked_messages//2:]`.  The set is
kept as a list in insertion order; `enum` is the (arbitrary) iteration order
produced by `list(...)`. -/
def remember (forwarded : List ForwardKey) (key : ForwardKey) (enum : List ForwardKey) :
    List ForwardKey :=
  let f := forwarded ++ [key]
  if max_tracked_messages < f.length then enum.drop (enum.length - max_tracked_messages / 2)
  else f

/-- A message as `_process_message` sees it: its text, the extracted
channel id (`none` for non-channel peers) and its id. -/
structure Msg where
  text : String
  channelId : Option Int
  id : Int

structure Cfg where
  keywords : List String
  forward_delay : Int

structure ClientState where
  rl : RateLimiter
  last_forward_time : List (Option Int × Int)
  forwarded_messages : List ForwardKey

/-- Outcome of the platform send inside `_forward_message`. -/
inductive SendOutcome
  | ok
  | floodWait (d : Nat)
  | sendErr
deriving DecidableEq

/-- Result of one `_process_message` call: its boolean return value, the new
state, the seconds slept (flood-wait) and whether `_forward_message` was
invoked. -/
structure PMResult where
  fwd : Bool
  st : ClientState
  slept : Nat
  invoked : Bool

def lookupLF (l : List (Option Int × Int)) (c : Option Int) : Option Int :=
  (l.find? (fun p => p.1 == c)).map Prod.snd

def setLF (l : List (Option Int × Int)) (c : Option Int) (t : Int) :
    List (Option Int × Int) :=
  if l.any (fun p => p.1 == c) then
    l.map (fun p => if p.1 == c then (c, t) else p)
  else l ++ [(c, t)]

/-- `TeleScoutClient._process_message` (lines 175–245).  Gate order: empty
text, keyword match, dedup membership, rate limit, per-source spacing; then
the send.  On success: set `last_forward_time`, `remember` the key (with
compaction), record in the rate limiter.  On `FloodWaitError d`: sleep `d`,
return failure.  On any other send error: return failure. -/
def process_message (cfg : Cfg) (st : ClientState) (m : Msg) (oc : SendOutcome)
    (now : Int) (enum : List ForwardKey) : PMResult :=
  if m.text.data.isEmpty then ⟨false, st, 0, false⟩
  else if !(has_match (mkKeywords cfg.keywords) m.text) then ⟨false, st, 0, false⟩
  else
    let key : ForwardKey := (m.channelId, m.id)
    if key ∈ st.forwarded_messages then ⟨false, st, 0, false⟩
    else
      let cs := can_send_message st.rl m.channelId now
      if !cs.1 then ⟨false, { st with rl := cs.2 }, 0, false⟩
      else
        let delayReject :=
          match lookupLF st.last_forward_time m.channelId with
          | some t0 => decide (now - t0 < cfg.forward_delay)
          | none => false
        if delayReject then ⟨false, { st with rl := cs.2 }, 0, false⟩
        else
          match oc with
          | .ok =>
            ⟨true,
             ⟨record_message cs.2 m.channelId now,
              setLF st.last_forward_time m.channelId now,
              remember st.forwarded_messages key enum⟩,
             0, true⟩
          | .floodWait d => ⟨false, { st with rl := cs.2 }, d, true⟩
          | .sendErr => ⟨false, { st with rl := cs.2 }, 0, true⟩

/-! ## `_forward_message` composition (lines 247–294) -/

/-- The header built by `_forward_message` from the channel title, the
formatted timestamp and the match summary. -/
def mkHeader (channelName timeStr summary : String) (isHistorical : Bool) : String :=
  "🎯 **TeleScout Match**\n" ++
  "📺 **Channel:** " ++ channelName ++ "\n" ++
  "⏰ **Time:** " ++ timeStr ++ "\n" ++
  "🔍 **" ++ summary ++ "**\n" ++
  (if isHistorical then "📚 **Historical message**\n" else "") ++
  String.mk (List.replicate 50 '=') ++ "\n\n"

/-- Python slice `s[:n]`. -/
def strTake (s : String) (n : Nat) : String := String.mk (s.data.take n)

/-- Lines 270–277: truncate the body if it exceeds `max_message_length`,
leaving 100 characters of room below the cap for the header before appending
the truncation notice; if no room remains, hide the content entirely. -/
def truncate_for_security (maxLen : Nat) (header body : String) : String :=
  if maxLen < body.length then
    let room : Int := (maxLen : Int) - (header.length : Int) - 100
    if 0 < room then strTake body room.toNat ++ "\n\n[Message truncated for security]"
    else "[Message too long, content hidden for security]"
  else body

/-- The full text passed to `client.send_message`: header followed by the
(possibly truncated) body. -/
def forward_text (kws : List String) (maxLen : Nat) (channelName : String)
    (timeStr : String) (body : String) (isHistorical : Bool) : String :=
  let summary :=
    match get_match_summary kws body with
    | some s => s
    | none => "None"
  let header := mkHeader channelName timeStr summary isHistorical
  header ++ truncate_for_security maxLen header body

/-! ## Session runs

A session is a sequence of steps; each step carries the incoming message,
the time at which it is processed, the (explicit) outcome of the platform
send, and the set-iteration order that compaction would use.  The run keeps
a log of forwarder invocations: the dedup key, the send outcome and the
time. -/

structure Step where
  msg : Msg
  oc : SendOutcome
  now : Int
  enum : List ForwardKey

structure LogE where
  key : ForwardKey
  oc : SendOutcome
  now : Int

def isOk : SendOutcome → Bool
  | .ok => true
  | _ => false

def runAux (cfg : Cfg) : List Step → ClientState → List LogE → ClientState × List LogE
  | [], st, acc => (st, acc)
  | s :: rest, st, acc =>
    let r := process_message cfg st s.msg s.oc s.now s.enum
    runAux cfg rest r.st
      (acc ++ if r.invoked then [⟨(s.msg.channelId, s.msg.id), s.oc, s.now⟩] else [])

def initState (maxH maxC : Nat) : ClientState := ⟨⟨maxH, maxC, [], []⟩, [], []⟩

/-- Run a whole session from a fresh client state. -/
def run (cfg : Cfg) (maxH maxC : Nat) (steps : List Step) : ClientState × List LogE :=
  runAux cfg steps (initState maxH maxC) []

/-- Keys of the successful forwards, in order. -/
def successKeys (acc : List LogE) : List ForwardKey :=
  acc.filterMap (fun e => if isOk e.oc then some e.key else none)

/-- Times of the successful forwards (global record stream), in order. -/
def gTimes (acc : List LogE) : List Int :=
  acc.filterMap (fun e => if isOk e.oc then some e.now else none)

/-- Times of the successful forwards from channel `c`, in order. -/
def cTimes (acc : List LogE) (c : Int) : List Int :=
  acc.filterMap (fun e => if isOk e.oc && e.key.1 == some c then some e.now else none)

/-- Number of invocations of `_forward_message` for dedup key `k`. -/
def invocationsFor (acc : List LogE) (k : ForwardKey) : Nat :=
  (acc.filter (fun e => e.key == k)).length

/-- Membership of a timestamp in the trailing 3600-second window ending at `t`. -/
def inWindow (t x : Int) : Bool := decide (t - 3600 ≤ x) && decide (x ≤ t)

/-- How many of the given record times fall in the window ending at `t`. -/
def wCount (ts : List Int) (t : Int) : Nat := (ts.filter (inWindow t)).length

/-- The step times are nondecreasing and all at least `t`. -/
def stepsChron : Int → List Step → Prop
  | _, [] => True
  | t, s :: rest => t ≤ s.now ∧ stepsChron s.now rest

/-! ## Helper lemmas: association maps -/

theorem find_map_update_self (m : List (Int × List Int)) (c : Int) (q : List Int)
    (hany : m.any (fun p => p.1 == c) = true) :
    (m.map (fun p => if p.1 == c then (c, q) else p)).find? (fun p => p.1 == c) =
      some (c, q) := by
  induction m with
  | nil => simp at hany
  | cons a t ih =>
    simp only [List.any_cons, Bool.or_eq_true] at hany
    by_cases hac : (a.1 == c) = true
    · have hc : a.1 = c := by simpa using hac
      simp [List.find?_cons, hc]
    · have hac' : (a.1 == c) = false := by simpa using hac
      have ht : (t.any fun p => p.1 == c) = true := by
        rcases hany with h | h
        · rw [hac'] at h; exact absurd h (by simp)
        · exact h
      rw [List.map_cons, if_neg hac, List.find?_cons, hac']
      simpa using ih ht

theorem find_map_update_other (m : List (Int × List Int)) (c : Int) (q : List Int)
    (c' : Int) (h : ¬ c' = c) :
    (m.map (fun p => if p.1 == c then (c, q) else p)).find? (fun p => p.1 == c') =
      m.find? (fun p => p.1 == c') := by
  induction m with
  | nil => rfl
  | cons a t ih =>
    by_cases hac : (a.1 == c) = true
    · have hc : a.1 = c := by simpa using hac
      have h1 : ((c, q).1 == c') = false := by
        simp only [beq_eq_false_iff_ne]
        exact fun hcc => h hcc.symm
      have h2 : (a.1 == c') = false := by
        simp only [beq_eq_false_iff_ne, hc]
        exact fun hcc => h hcc.symm
      simp only [List.map_cons, if_pos hac, List.find?_cons, h1, h2]
      exact ih
    · simp only [List.map_cons, if_neg hac, List.find?_cons]
      cases ha' : (a.1 == c') with
      | true => rfl
      | false => exact ih

theorem lookup_setChannel_self (m : List (Int × List Int)) (c : Int) (q : List Int) :
    lookupChannel (setChannel m c q) c = q := by
  unfold setChannel
  by_cases hany : m.any (fun p => p.1 == c) = true
  · rw [if_pos hany]
    unfold lookupChannel
    rw [find_map_update_self m c q hany]
  · rw [if_neg hany]
    unfold lookupChannel
    rw [List.find?_append]
    have hnone : m.find? (fun p => p.1 == c) = none := by
      rw [List.find?_eq_none]
      intro p hp hpc
      exact hany (List.any_eq_true.mpr ⟨p, hp, hpc⟩)
    rw [hnone]
    simp [List.find?_cons]

theorem lookup_setChannel_other (m : List (Int × List Int)) (c : Int) (q : List Int)
    (c' : Int) (h : ¬ c' = c) :
    lookupChannel (setChannel m c q) c' = lookupChannel m c' := by
  unfold setChannel
  by_cases hany : m.any (fun p => p.1 == c) = true
  · rw [if_pos hany]
    unfold lookupChannel
    rw [find_map_update_other m c q c' h]
  · rw [if_neg hany]
    unfold lookupChannel
    rw [List.find?_append]
    have h1 : ((c, q).1 == c') = false := by
      simp only [beq_eq_false_iff_ne]
      exact fun hcc => h hcc.symm
    have h2 : List.find? (fun p => p.1 == c') [(c, q)] = none := by
      simp [List.find?_cons, h1]
    rw [h2]
    cases m.find? (fun p => p.1 == c') <;> rfl

/-! ## Helper lemmas: pruning as dropping a stale prefix -/

/-- Pruning drops some prefix, every element of which is older than one hour. -/
theorem cleanup_spec (q : List Int) (now : Int) :
    ∃ j, j ≤ q.length ∧ cleanup_old_messages q now = q.drop j ∧
      ∀ x ∈ q.take j, x < now - 3600 := by
  induction q with
  | nil => exact ⟨0, by simp, rfl, by simp⟩
  | cons a t ih =>
    by_cases ha : a < now - 3600
    · obtain ⟨j, hj, hdrop, htake⟩ := ih
      refine ⟨j + 1, by simpa using hj, ?_, ?_⟩
      · rw [List.drop_succ_cons]
        unfold cleanup_old_messages
        rw [List.dropWhile_cons_of_pos (by simpa using ha)]
        exact hdrop
      · intro x hx
        rw [List.take_succ_cons] at hx
        rcases List.mem_cons.mp hx with hx | hx
        · omega
        · exact htake x hx
    · refine ⟨0, by simp, ?_, by simp⟩
      unfold cleanup_old_messages
      rw [List.dropWhile_cons_of_neg (by simpa using ha), List.drop_zero]

/-- If a queue is the suffix of a history `L` past a stale prefix (stale
relative to `t0`), then after pruning at a later time `τ` it is still such a
suffix, now stale relative to `τ`. -/
theorem cleanup_suffix (L Q : List Int) (k : Nat) (t0 τ : Int)
    (hk : k ≤ L.length) (hQ : Q = L.drop k) (hstale : ∀ x ∈ L.take k, x < t0 - 3600)
    (hle : t0 ≤ τ) :
    ∃ k', k' ≤ L.length ∧ cleanup_old_messages Q τ = L.drop k' ∧
      ∀ x ∈ L.take k', x < τ - 3600 := by
  obtain ⟨j, hj, hdrop, htake⟩ := cleanup_spec Q τ
  refine ⟨k + j, ?_, ?_, ?_⟩
  · have hlen := List.length_drop k L
    rw [hQ, hlen] at hj
    omega
  · rw [hdrop, hQ, List.drop_drop]
  · intro x hx
    rw [List.take_add] at hx
    rcases List.mem_append.mp hx with hx | hx
    · have := hstale x hx
      omega
    · rw [← hQ] at hx
      exact htake x hx

/-- Appending a fresh element to the pruned queue extends the history suffix. -/
theorem suffix_append_record (L Q : List Int) (k : Nat) (τ : Int)
    (hk : k ≤ L.length) (hQ : Q = L.drop k) :
    Q ++ [τ] = (L ++ [τ]).drop k := by
  rw [hQ, List.drop_append_of_le_length hk]

/-! ## Helper lemmas: rate-limiter operations -/

theorem can_send_spec (rl : RateLimiter) (ch : Option Int) (now : Int) :
    (can_send_message rl ch now).2.max_per_hour = rl.max_per_hour ∧
    (can_send_message rl ch now).2.max_per_channel_per_hour = rl.max_per_channel_per_hour ∧
    (can_send_message rl ch now).2.global_messages =
      cleanup_old_messages rl.global_messages now ∧
    (∀ c, lookupChannel (can_send_message rl ch now).2.channel_messages c =
        lookupChannel rl.channel_messages c ∨
      lookupChannel (can_send_message rl ch now).2.channel_messages c =
        cleanup_old_messages (lookupChannel rl.channel_messages c) now) ∧
    ((can_send_message rl ch now).1 = true →
      (cleanup_old_messages rl.global_messages now).length < rl.max_per_hour ∧
      ∀ c0, ch = some c0 →
        lookupChannel (can_send_message rl ch now).2.channel_messages c0 =
          cleanup_old_messages (lookupChannel rl.channel_messages c0) now ∧
        (cleanup_old_messages (lookupChannel rl.channel_messages c0) now).length <
          rl.max_per_channel_per_hour) := by
  unfold can_send_message
  by_cases hg : rl.max_per_hour ≤ (cleanup_old_messages rl.global_messages now).length
  · rw [if_pos hg]
    refine ⟨rfl, rfl, rfl, fun c => Or.inl rfl, fun hfalse => by simp at hfalse⟩
  · rw [if_neg hg]
    cases ch with
    | none =>
      refine ⟨rfl, rfl, rfl, fun c => Or.inl rfl, fun _ => ⟨by omega, ?_⟩⟩
      intro c0 hc0
      exact absurd hc0 (by simp)
    | some c =>
      dsimp only
      by_cases hc : rl.max_per_channel_per_hour ≤
          (cleanup_old_messages (lookupChannel rl.channel_messages c) now).length
      · rw [if_pos hc]
        refine ⟨rfl, rfl, rfl, fun c' => ?_, fun hfalse => by simp at hfalse⟩
        by_cases hcc : c' = c
        · subst hcc
          exact Or.inr (lookup_setChannel_self _ _ _)
        · exact Or.inl (lookup_setChannel_other _ _ _ _ hcc)
      · rw [if_neg hc]
        refine ⟨rfl, rfl, rfl, fun c' => ?_, fun _ => ⟨by omega, ?_⟩⟩
        · by_cases hcc : c' = c
          · subst hcc
            exact Or.inr (lookup_setChannel_self _ _ _)
          · exact Or.inl (lookup_setChannel_other _ _ _ _ hcc)
        · intro c0 hc0
          injection hc0 with hc0
          subst hc0
          exact ⟨lookup_setChannel_self _ _ _, by omega⟩

theorem record_spec (rl : RateLimiter) (ch : Option Int) (now : Int) :
    (record_message rl ch now).max_per_hour = rl.max_per_hour ∧
    (record_message rl ch now).max_per_channel_per_hour = rl.max_per_channel_per_hour ∧
    (record_message rl ch now).global_messages = rl.global_messages ++ [now] ∧
    (∀ c0, ch = some c0 →
      lookupChannel (record_message rl ch now).channel_messages c0 =
        lookupChannel rl.channel_messages c0 ++ [now]) ∧
    (∀ c, ch ≠ some c →
      lookupChannel (record_message rl ch now).channel_messages c =
        lookupChannel rl.channel_messages c) := by
  unfold record_message
  cases ch with
  | none => exact ⟨rfl, rfl, rfl, fun c0 h => absurd h (by simp), fun c _ => rfl⟩
  | some c =>
    refine ⟨rfl, rfl, rfl, fun c0 h => ?_, fun c' h => ?_⟩
    · injection h with h
      subst h
      exact lookup_setChannel_self _ _ _
    · have hne : ¬ c' = c := fun hh => h (by rw [hh])
      exact lookup_setChannel_other _ _ _ _ hne

/-! ## Helper: case analysis of one `_process_message` call -/

theorem pm_cases (cfg : Cfg) (st : ClientState) (m : Msg) (oc : SendOutcome)
    (now : Int) (enum : List ForwardKey) :
    (process_message cfg st m oc now enum = ⟨false, st, 0, false⟩ ∧
      (m.text.data.isEmpty = true ∨ has_match (mkKeywords cfg.keywords) m.text = false ∨
        (m.channelId, m.id) ∈ st.forwarded_messages)) ∨
    (((can_send_message st.rl m.channelId now).1 = false ∨
       (∃ t0, lookupLF st.last_forward_time m.channelId = some t0 ∧
         now - t0 < cfg.forward_delay)) ∧
      process_message cfg st m oc now enum =
        ⟨false, { st with rl := (can_send_message st.rl m.channelId now).2 }, 0, false⟩) ∨
    ((can_send_message st.rl m.channelId now).1 = true ∧
      (m.channelId, m.id) ∉ st.forwarded_messages ∧
      m.text.data.isEmpty = false ∧
      has_match (mkKeywords cfg.keywords) m.text = true ∧
      (∀ t0, lookupLF st.last_forward_time m.channelId = some t0 →
        cfg.forward_delay ≤ now - t0) ∧
      ((∃ d, oc = .floodWait d ∧ process_message cfg st m oc now enum =
          ⟨false, { st with rl := (can_send_message st.rl m.channelId now).2 }, d, true⟩) ∨
       (oc = .sendErr ∧ process_message cfg st m oc now enum =
          ⟨false, { st with rl := (can_send_message st.rl m.channelId now).2 }, 0, true⟩) ∨
       (oc = .ok ∧ process_message cfg st m oc now enum =
          ⟨true,
           ⟨record_message (can_send_message st.rl m.channelId now).2 m.channelId now,
            setLF st.last_forward_time m.channelId now,
            remember st.forwarded_messages (m.channelId, m.id) enum⟩,
           0, true⟩))) := by
  by_cases h1 : m.text.data.isEmpty = true
  · exact Or.inl ⟨by simp [process_message, h1], Or.inl h1⟩
  · by_cases h2 : has_match (mkKeywords cfg.keywords) m.text = true
    · by_cases h3 : (m.channelId, m.id) ∈ st.forwarded_messages
      · exact Or.inl ⟨by simp [process_message, h1, h2, h3], Or.inr (Or.inr h3)⟩
      · by_cases h4 : (can_send_message st.rl m.channelId now).1 = true
        · cases h5 : lookupLF st.last_forward_time m.channelId with
          | none =>
            refine Or.inr (Or.inr ⟨h4, h3, by simpa using h1, h2,
              fun t0 hh => absurd hh (by simp), ?_⟩)
            cases oc with
            | ok =>
              exact Or.inr (Or.inr ⟨rfl, by simp [process_message, h1, h2, h3, h4, h5]⟩)
            | floodWait d =>
              exact Or.inl ⟨d, rfl, by simp [process_message, h1, h2, h3, h4, h5]⟩
            | sendErr =>
              exact Or.inr (Or.inl ⟨rfl, by simp [process_message, h1, h2, h3, h4, h5]⟩)
          | some t0 =>
            by_cases h6 : now - t0 < cfg.forward_delay
            · refine Or.inr (Or.inl ⟨Or.inr ⟨t0, rfl, h6⟩, ?_⟩)
              simp [process_message, h1, h2, h3, h4, h5, h6]
            · refine Or.inr (Or.inr ⟨h4, h3, by simpa using h1, h2, ?_, ?_⟩)
              · intro t0' hh
                injection hh with hh
                subst hh
                omega
              cases oc with
              | ok =>
                exact Or.inr (Or.inr ⟨rfl, by simp [process_message, h1, h2, h3, h4, h5, h6]⟩)
              | floodWait d =>
                exact Or.inl ⟨d, rfl, by simp [process_message, h1, h2, h3, h4, h5, h6]⟩
              | sendErr =>
                exact Or.inr (Or.inl ⟨rfl, by simp [process_message, h1, h2, h3, h4, h5, h6]⟩)
        · refine Or.inr (Or.inl ⟨Or.inl (by simpa using h4), ?_⟩)
          simp [process_message, h1, h2, h3, h4]
    · exact Or.inl ⟨by simp [process_message, h1, h2], Or.inr (Or.inl (by simpa using h2))⟩

/-! ## Claim C9: ordinal date formatting -/

/-- Modelled from the spec's words (C9): suffix by `d mod 10` with
`11,12,13` always `th`. -/
def specOrdinalSuffix (d : Nat) : String :=
  if d = 11 ∨ d = 12 ∨ d = 13 then "th"
  else if d % 10 = 1 then "st"
  else if d % 10 = 2 then "nd"
  else if d % 10 = 3 then "rd"
  else "th"

/-- C9: for every day `d ∈ {1..31}`, `format_datetime` produces the ordinal
suffix of the spec's mod-10 rule (with 11..13 ↦ `th`), together with the full
month name, 4-digit year and zero-padded 12-hour clock with AM/PM — at the
spec's example date, `format_datetime` yields exactly
`"<d><suffix> August 2025 05:59PM"`. -/
theorem ordinal_formatting (d : Nat) (h1 : 1 ≤ d) (h2 : d ≤ 31) :
    format_datetime d 8 2025 17 59 = toString d ++ specOrdinalSuffix d ++ " August 2025 05:59PM" := by
  interval_cases d <;> rfl

/-- Witness for C9 at `d = 5`: `5th August 2025 05:59PM`. -/
theorem ordinal_formatting_witness :
    format_datetime 5 8 2025 17 59 = toString 5 ++ specOrdinalSuffix 5 ++ " August 2025 05:59PM" :=
  ordinal_formatting 5 (by decide) (by decide)

/-! ## Claim C6: truncation rule -/

/-- Branch behaviour of `truncate_for_security` (shared helper). -/
theorem truncate_spec (maxLen : Nat) (header body : String) :
    (body.length ≤ maxLen → truncate_for_security maxLen header body = body) ∧
    (maxLen < body.length →
      ((0 : Int) < (maxLen : Int) - (header.length : Int) - 100 →
        truncate_for_security maxLen header body =
          strTake body ((maxLen : Int) - (header.length : Int) - 100).toNat ++
            "\n\n[Message truncated for security]") ∧
      ((maxLen : Int) - (header.length : Int) - 100 ≤ 0 →
        truncate_for_security maxLen header body =
          "[Message too long, content hidden for security]")) := by
  unfold truncate_for_security
  by_cases hlong : maxLen < body.length
  · rw [if_pos hlong]
    dsimp only
    by_cases hroom : (0 : Int) < (maxLen : Int) - (header.length : Int) - 100
    · rw [if_pos hroom]
      exact ⟨fun hle => absurd hlong (by omega), fun _ => ⟨fun _ => rfl, fun hle => by omega⟩⟩
    · rw [if_neg hroom]
      exact ⟨fun hle => absurd hlong (by omega), fun _ => ⟨fun hlt => absurd hlt hroom, fun _ => rfl⟩⟩
  · rw [if_neg hlong]
    exact ⟨fun _ => rfl, fun hlt => absurd hlt hlong⟩

/-- C6: composing the outbound body.  If `len(body) ≤ max_message_length` the
body is unchanged; otherwise with `room = max − len(header) − 100`: if
`room > 0` the body becomes `body[:room] ++ "\n\n[Message truncated for
security]"`, else it is replaced by `"[Message too long, content hidden for
security]"`. -/
theorem truncation_rule (maxLen : Nat) (header body : String) :
    (body.length ≤ maxLen → truncate_for_security maxLen header body = body) ∧
    (maxLen < body.length →
      ((0 : Int) < (maxLen : Int) - (header.length : Int) - 100 →
        truncate_for_security maxLen header body =
          strTake body ((maxLen : Int) - (header.length : Int) - 100).toNat ++
            "\n\n[Message truncated for security]") ∧
      ((maxLen : Int) - (header.length : Int) - 100 ≤ 0 →
        truncate_for_security maxLen header body =
          "[Message too long, content hidden for security]")) :=
  truncate_spec maxLen header body

/-- Witness for C6: a short body is passed through unchanged, and a long body
with no room is fully hidden. -/
theorem truncation_rule_witness :
    truncate_for_security 10 "h" "abc" = "abc" ∧
      truncate_for_security 10 "h" "abcdefghijkl" =
        "[Message too long, content hidden for security]" :=
  ⟨(truncation_rule 10 "h" "abc").1 (by decide),
   ((truncation_rule 10 "h" "abcdefghijkl").2 (by decide)).2 (by decide)⟩

/-! ## Claim C7: keyword normalization -/

theorem wordAt_cons_succ (a : Char) (t : List Char) (j : Nat) :
    wordAt (a :: t) (j + 1) = wordAt t j := by
  unfold wordAt
  rw [List.getElem?_cons_succ]

theorem boundary_cons_of_not_word (a : Char) (t : List Char) (i : Nat)
    (ha : isWordChar a = false) :
    boundary (a :: t) (i + 1) = boundary t i := by
  cases i with
  | zero =>
    unfold boundary
    rw [if_neg (by omega), if_pos rfl, wordAt_cons_succ]
    have h0 : wordAt (a :: t) 0 = false := by
      unfold wordAt
      simpa using ha
    rw [h0]
  | succ j =>
    unfold boundary
    rw [if_neg (by omega), if_neg (by omega)]
    have e1 : j + 1 + 1 - 1 = j + 1 := by omega
    have e2 : j + 1 - 1 = j := by omega
    rw [e1, e2, wordAt_cons_succ, wordAt_cons_succ]

/-- Any text containing a word character has a word boundary (so the empty
pattern `\b\b` finds a match on it). -/
theorem exists_boundary (cs : List Char) (h : ∃ c ∈ cs, isWordChar c = true) :
    ∃ i, i ≤ cs.length ∧ boundary cs i = true := by
  induction cs with
  | nil => simp at h
  | cons a t ih =>
    by_cases ha : isWordChar a = true
    · refine ⟨0, by simp, ?_⟩
      unfold boundary
      rw [if_pos rfl]
      have h0 : wordAt (a :: t) 0 = isWordChar a := by
        unfold wordAt
        simp
      rw [h0, ha]
      rfl
    · have ha' : isWordChar a = false := by simpa using ha
      have h' : ∃ c ∈ t, isWordChar c = true := by
        rcases h with ⟨c, hc, hw⟩
        rcases List.mem_cons.mp hc with rfl | hc
        · exact absurd hw ha
        · exact ⟨c, hc, hw⟩
      obtain ⟨i, hi, hb⟩ := ih h'
      refine ⟨i + 1, by simpa using hi, ?_⟩
      rw [boundary_cons_of_not_word a t i ha']
      exact hb

/-- The empty keyword's pattern `\b\b` matches any text with a word char. -/
theorem patternSearch_empty (text : String) (h : ∃ c ∈ text.data, isWordChar c = true) :
    patternSearch text "" = true := by
  obtain ⟨i, hi, hb⟩ := exists_boundary text.data h
  unfold patternSearch
  rw [List.any_eq_true]
  refine ⟨i, List.mem_range.mpr (by omega), ?_⟩
  unfold matchesAt
  have hdata : ("" : String).data = [] := rfl
  rw [hdata]
  simp only [List.length_nil, Nat.add_zero, List.take_zero, List.map_nil]
  rw [hb]
  simp
  have hlen : text.length = text.data.length := rfl
  omega

/-- Counterexample to C7 as stated: the keyword `" "` normalizes to the empty
string, is NOT discarded (the keyword list is `[""]`, not `[]`), and its
pattern `\b\b` does report a match on `"hi"`. -/
theorem keyword_normalization_counterexample :
    mkKeywords [" "] = [""] ∧ mkKeywords [" "] ≠ [] ∧
      has_match (mkKeywords [" "]) "hi" = true := by
  refine ⟨by decide, by decide, by decide⟩

/-- C7 amended: the constructor lowercases and trims every keyword, but
keywords that become empty are retained (one pattern per input keyword); an
empty keyword's pattern `\b\b` matches any text containing a word character,
so it can report a match. -/
theorem keyword_normalization (kws : List String) (kw text : String)
    (hmem : kw ∈ kws) (hempty : normalizeKeyword kw = "")
    (hword : ∃ c ∈ text.data, isWordChar c = true) :
    mkKeywords kws = kws.map normalizeKeyword ∧
      (mkKeywords kws).length = kws.length ∧
      has_match (mkKeywords kws) text = true := by
  refine ⟨rfl, by simp [mkKeywords], ?_⟩
  unfold has_match
  have hne : text.data ≠ [] := by
    rcases hword with ⟨c, hc, _⟩
    exact List.ne_nil_of_mem hc
  rw [if_neg (by simpa using hne)]
  rw [List.any_eq_true]
  refine ⟨"", ?_, patternSearch_empty text hword⟩
  rw [← hempty]
  exact List.mem_map_of_mem normalizeKeyword hmem

/-- Witness for C7 (amended): the configured list `[" ", "x"]` keeps both
keywords after normalization and matches `"hi"` through its empty keyword. -/
theorem keyword_normalization_witness :
    mkKeywords [" ", "x"] = [" ", "x"].map normalizeKeyword ∧
      (mkKeywords [" ", "x"]).length = ([" ", "x"] : List String).length ∧
      has_match (mkKeywords [" ", "x"]) "hi" = true :=
  keyword_normalization [" ", "x"] " " "hi" (by decide)
    (by decide) (by decide)

/-! ## Claim C8: match summary format -/

/-- Counterexample to C8 as stated: with four matching keywords the code
returns `"Keywords matched: 'alpha', 'beta', 'gamma' (+1 more)"` — there is a
space before the overflow suffix, so the claimed literal
`"...'gamma'(+1 more)"` is not returned. -/
theorem match_summary_counterexample :
    get_match_summary (mkKeywords ["alpha", "beta", "gamma", "delta"])
        "alpha beta gamma delta" =
      some "Keywords matched: 'alpha', 'beta', 'gamma' (+1 more)" ∧
    ( "Keywords matched: 'alpha', 'beta', 'gamma' (+1 more)" : String) ≠
      "Keywords matched: 'alpha', 'beta', 'gamma'(+1 more)" := by
  refine ⟨by decide, by decide⟩

theorem str_merge_quote_head (x : String) :
    ( "Keywords matched: " : String) ++ ( "'" ++ x) = "Keywords matched: '" ++ x := by
  rw [← String.append_assoc]
  have h : ( "Keywords matched: " ++ "'" : String) = "Keywords matched: '" := by decide
  rw [h]

theorem str_merge_quote_sep (x : String) :
    ( "', " : String) ++ ( "'" ++ x) = "', '" ++ x := by
  rw [← String.append_assoc]
  have h : ( "', " ++ "'" : String) = "', '" := by decide
  rw [h]

theorem str_merge_quote_paren (x : String) :
    ( "'" : String) ++ ( " (+" ++ x) = "' (+" ++ x := by
  rw [← String.append_assoc]
  have h : ( "'" ++ " (+" : String) = "' (+" := by decide
  rw [h]

/-- C8 amended: `get_match_summary` returns `none` iff no keyword matches;
`"Keyword matched: 'X'"` for exactly one match; for several matches it lists
at most three matched keywords (in configured order — the match list is a
sublist of the configured keyword list) and appends the overflow suffix
`" (+N more)"` (with a leading space) when more than three matched. -/
theorem match_summary_format (kws : List String) (text : String) :
    (find_matches kws text).Sublist kws ∧
    (get_match_summary kws text = none ↔ find_matches kws text = []) ∧
    (∀ a, find_matches kws text = [a] →
      get_match_summary kws text = some ( "Keyword matched: '" ++ a ++ "'" )) ∧
    (∀ a b, find_matches kws text = [a, b] →
      get_match_summary kws text =
        some ( "Keywords matched: " ++ "'" ++ a ++ "'" ++ ", " ++ "'" ++ b ++ "'" )) ∧
    (∀ a b c, find_matches kws text = [a, b, c] →
      get_match_summary kws text =
        some ( "Keywords matched: " ++ "'" ++ a ++ "'" ++ ", " ++ "'" ++ b ++ "'" ++
          ", " ++ "'" ++ c ++ "'" )) ∧
    (∀ a b c rest, find_matches kws text = a :: b :: c :: rest → rest ≠ [] →
      get_match_summary kws text =
        some ( "Keywords matched: " ++ "'" ++ a ++ "'" ++ ", " ++ "'" ++ b ++ "'" ++
          ", " ++ "'" ++ c ++ "'" ++ " (+" ++ toString rest.length ++ " more)" )) := by
  refine ⟨?_, ?_, ?_, ?_, ?_, ?_⟩
  · unfold find_matches
    by_cases h : text.data.isEmpty = true
    · rw [if_pos h]
      exact List.nil_sublist kws
    · rw [if_neg h]
      exact List.filter_sublist kws
  · unfold get_match_summary
    rcases hfm : find_matches kws text with _ | ⟨a, _ | ⟨b, t⟩⟩ <;> simp
  · intro a h
    unfold get_match_summary
    rw [h]
  · intro a b h
    unfold get_match_summary
    rw [h]
    simp only [List.take_succ_cons, List.take_zero, List.map_cons, List.map_nil,
      List.length_cons, List.length_nil, joinComma]
    rw [if_neg (by omega)]
    rw [String.append_empty]
    simp [String.append_assoc, str_merge_quote_head, str_merge_quote_sep]
  · intro a b c h
    unfold get_match_summary
    rw [h]
    simp only [List.take_succ_cons, List.take_zero, List.map_cons, List.map_nil,
      List.length_cons, List.length_nil, joinComma]
    rw [if_neg (by omega)]
    rw [String.append_empty]
    simp [String.append_assoc, str_merge_quote_head, str_merge_quote_sep]
  · intro a b c rest h hrest
    unfold get_match_summary
    rw [h]
    have hpos : 0 < rest.length := List.length_pos.mpr hrest
    simp only [List.take_succ_cons, List.take_zero, List.map_cons, List.map_nil,
      List.length_cons, joinComma]
    rw [if_pos (by omega)]
    have harith : rest.length + 1 + 1 + 1 - 3 = rest.length := by omega
    rw [harith]
    simp [String.append_assoc, str_merge_quote_head, str_merge_quote_sep,
      str_merge_quote_paren]

/-- Witness for C8 (amended): one matching keyword yields the exact
single-match format. -/
theorem match_summary_format_witness :
    get_match_summary (mkKeywords ["deploy"]) "we deploy now" =
      some ( "Keyword matched: '" ++ "deploy" ++ "'" ) :=
  (match_summary_format (mkKeywords ["deploy"]) "we deploy now").2.2.1 "deploy" (by decide)

/-! ## Claim C10: messages without a channel id -/

/-- C10: when the peer has no `channel_id`, the source id is `None`:
(1) `can_send_message` with `None` checks only the global hourly cap (its
decision is exactly "pruned global count < max_per_hour", whatever the
per-channel queues hold); (2) all such messages share the dedup keyspace
`(None, message_id)` — if `(None, id)` was forwarded, any further message
with no channel id and the same id is dropped; (3) they share one spacing
slot — a recent forward recorded under `None` blocks any `None`-source
message within `forward_delay`. -/
theorem none_source_behaviour :
    (∀ (rl : RateLimiter) (now : Int),
      ((can_send_message rl none now).1 = true ↔
        (cleanup_old_messages rl.global_messages now).length < rl.max_per_hour)) ∧
    (∀ (cfg : Cfg) (st : ClientState) (m : Msg) (oc : SendOutcome) (now : Int)
        (enum : List ForwardKey),
      m.channelId = none →
      ((none : Option Int), m.id) ∈ st.forwarded_messages →
      (process_message cfg st m oc now enum).fwd = false) ∧
    (∀ (cfg : Cfg) (st : ClientState) (m : Msg) (oc : SendOutcome) (now : Int)
        (enum : List ForwardKey) (t0 : Int),
      m.channelId = none →
      lookupLF st.last_forward_time none = some t0 →
      now - t0 < cfg.forward_delay →
      (process_message cfg st m oc now enum).fwd = false) := by
  refine ⟨?_, ?_, ?_⟩
  · intro rl now
    unfold can_send_message
    by_cases hg : rl.max_per_hour ≤ (cleanup_old_messages rl.global_messages now).length
    · rw [if_pos hg]
      simp
      omega
    · rw [if_neg hg]
      simp
      omega
  · intro cfg st m oc now enum hch hmem
    rcases pm_cases cfg st m oc now enum with ⟨heq, _⟩ | ⟨_, heq⟩ |
      ⟨_, hnot, _, _, _, hbr⟩
    · rw [heq]
    · rw [heq]
    · rw [hch] at hnot
      exact absurd hmem hnot
  · intro cfg st m oc now enum t0 hch hlf hdelay
    rcases pm_cases cfg st m oc now enum with ⟨heq, _⟩ | ⟨_, heq⟩ |
      ⟨_, _, _, _, hdp, hbr⟩
    · rw [heq]
    · rw [heq]
    · rw [hch] at hdp
      have := hdp t0 hlf
      omega

/-- Witness for C10: concrete `None`-source instances for all three parts. -/
theorem none_source_behaviour_witness :
    ((can_send_message ⟨2, 1, [], []⟩ none 0).1 = true ↔
      (cleanup_old_messages ([] : List Int) 0).length < 2) ∧
    (process_message ⟨["deploy"], 0⟩
        ⟨⟨2, 1, [], []⟩, [], [(none, 7)]⟩ ⟨ "deploy", none, 7⟩ .ok 0 []).fwd = false ∧
    (process_message ⟨["deploy"], 5⟩
        ⟨⟨2, 1, [], []⟩, [(none, 0)], []⟩ ⟨ "deploy", none, 8⟩ .ok 1 []).fwd = false := by
  refine ⟨(none_source_behaviour.1 ⟨2, 1, [], []⟩ 0), ?_, ?_⟩
  · exact none_source_behaviour.2.1 ⟨["deploy"], 0⟩
      ⟨⟨2, 1, [], []⟩, [], [(none, 7)]⟩ ⟨ "deploy", none, 7⟩ .ok 0 [] rfl (by decide)
  · exact none_source_behaviour.2.2 ⟨["deploy"], 5⟩
      ⟨⟨2, 1, [], []⟩, [(none, 0)], []⟩ ⟨ "deploy", none, 8⟩ .ok 1 [] 0 rfl (by decide)
      (by decide)

/-! ## Claim C3: flood-wait atomicity -/

/-- A pruned queue is a sublist (no new elements) of the original. -/
theorem cleanup_sublist (q : List Int) (now : Int) :
    (cleanup_old_messages q now).Sublist q := by
  obtain ⟨j, _, hdrop, _⟩ := cleanup_spec q now
  rw [hdrop]
  exact List.drop_sublist j q

/-- C3: if the send raises flood-wait `d` (on a message that passed all the
gates), `_process_message` sleeps `d` seconds and returns `False`, the key is
not added to the dedup set, `last_forward_time` is untouched, and nothing is
recorded in the rate limiter (its queues only lose expired entries — they are
sublists of the previous queues), and the limits are unchanged. -/
theorem flood_wait_atomicity (cfg : Cfg) (st : ClientState) (m : Msg) (d : Nat)
    (now : Int) (enum : List ForwardKey)
    (h1 : m.text.data.isEmpty = false)
    (h2 : has_match (mkKeywords cfg.keywords) m.text = true)
    (h3 : (m.channelId, m.id) ∉ st.forwarded_messages)
    (h4 : (can_send_message st.rl m.channelId now).1 = true)
    (h5 : ∀ t0, lookupLF st.last_forward_time m.channelId = some t0 →
      cfg.forward_delay ≤ now - t0) :
    (process_message cfg st m (.floodWait d) now enum).fwd = false ∧
    (process_message cfg st m (.floodWait d) now enum).slept = d ∧
    (process_message cfg st m (.floodWait d) now enum).invoked = true ∧
    (process_message cfg st m (.floodWait d) now enum).st.forwarded_messages =
      st.forwarded_messages ∧
    (process_message cfg st m (.floodWait d) now enum).st.last_forward_time =
      st.last_forward_time ∧
    (process_message cfg st m (.floodWait d) now enum).st.rl.global_messages.Sublist
      st.rl.global_messages ∧
    (∀ c, (lookupChannel
        (process_message cfg st m (.floodWait d) now enum).st.rl.channel_messages
        c).Sublist (lookupChannel st.rl.channel_messages c)) ∧
    (process_message cfg st m (.floodWait d) now enum).st.rl.max_per_hour =
      st.rl.max_per_hour ∧
    (process_message cfg st m (.floodWait d) now enum).st.rl.max_per_channel_per_hour =
      st.rl.max_per_channel_per_hour := by
  rcases pm_cases cfg st m (.floodWait d) now enum with ⟨heq, hc⟩ | ⟨hc, heq⟩ |
    ⟨hcs, hnot, hne, hhm, hdp, hbr⟩
  · exfalso
    rcases hc with hc | hc | hc
    · rw [h1] at hc
      exact absurd hc (by simp)
    · rw [h2] at hc
      exact absurd hc (by simp)
    · exact h3 hc
  · exfalso
    rcases hc with hc | ⟨t0, hlf, hlt⟩
    · rw [h4] at hc
      exact absurd hc (by simp)
    · have := h5 t0 hlf
      omega
  · rcases hbr with ⟨d', hoc, heq⟩ | ⟨hoc, _⟩ | ⟨hoc, _⟩
    · injection hoc with hd
      subst hd
      rw [heq]
      obtain ⟨hm1, hm2, hg, hch, _⟩ := can_send_spec st.rl m.channelId now
      refine ⟨rfl, rfl, rfl, rfl, rfl, ?_, ?_, hm1, hm2⟩
      · rw [hg]
        exact cleanup_sublist st.rl.global_messages now
      · intro c
        rcases hch c with hc | hc
        · rw [hc]
        · rw [hc]
          exact cleanup_sublist (lookupChannel st.rl.channel_messages c) now
    · exact absurd hoc (by simp)
    · exact absurd hoc (by simp)

/-- Witness for C3: the spec's flood-wait scenario (`d = 2`) at a concrete
state; the message is not marked, and nothing is recorded. -/
theorem flood_wait_atomicity_witness :
    (process_message ⟨["deploy"], 5⟩ ⟨⟨60, 20, [], []⟩, [], []⟩
        ⟨ "deploy", some 42, 1000⟩ (.floodWait 2) 0 []).fwd = false ∧
    (process_message ⟨["deploy"], 5⟩ ⟨⟨60, 20, [], []⟩, [], []⟩
        ⟨ "deploy", some 42, 1000⟩ (.floodWait 2) 0 []).slept = 2 ∧
    (process_message ⟨["deploy"], 5⟩ ⟨⟨60, 20, [], []⟩, [], []⟩
        ⟨ "deploy", some 42, 1000⟩ (.floodWait 2) 0 []).invoked = true ∧
    (process_message ⟨["deploy"], 5⟩ ⟨⟨60, 20, [], []⟩, [], []⟩
        ⟨ "deploy", some 42, 1000⟩ (.floodWait 2) 0 []).st.forwarded_messages =
      ([] : List ForwardKey) ∧
    (process_message ⟨["deploy"], 5⟩ ⟨⟨60, 20, [], []⟩, [], []⟩
        ⟨ "deploy", some 42, 1000⟩ (.floodWait 2) 0 []).st.last_forward_time =
      ([] : List (Option Int × Int)) := by
  have h := flood_wait_atomicity ⟨["deploy"], 5⟩ ⟨⟨60, 20, [], []⟩, [], []⟩
    ⟨ "deploy", some 42, 1000⟩ 2 0 [] (by decide) (by decide) (by decide) (by decide)
    (by intro t0 hh; simp [lookupLF] at hh)
  exact ⟨h.1, h.2.1, h.2.2.1, h.2.2.2.1, h.2.2.2.2.1⟩

/-! ## Claim C4: dedup capacity and compaction -/

/-- A full dedup store: 10,000 distinct keys of channel 0. -/
def bigKeys : List ForwardKey :=
  (List.range 10000).map (fun (i : Nat) => ((some 0 : Option Int), (i : Int)))

def newKey : ForwardKey := ((some 0 : Option Int), (10000 : Int))

/-- Counterexample to C4 as stated: compaction operates on `list(set)`, whose
iteration order is arbitrary.  For the legitimate iteration order that lists
the newly inserted key first (a permutation of the set's elements), the
compaction keeps the last 5,000 listed keys and DROPS the key that was
inserted in the same call. -/
theorem dedup_compaction_counterexample :
    (newKey :: bigKeys).Perm (bigKeys ++ [newKey]) ∧
      newKey ∉ remember bigKeys newKey (newKey :: bigKeys) := by
  constructor
  · exact (List.perm_append_singleton newKey bigKeys).symm
  · have hlen : bigKeys.length = 10000 := by
      simp only [bigKeys, List.length_map, List.length_range]
    have h : remember bigKeys newKey (newKey :: bigKeys) = bigKeys.drop 5000 := by
      unfold remember
      rw [if_pos (by simp only [List.length_append, List.length_cons,
        List.length_nil, hlen, max_tracked_messages]; omega)]
      have he : (newKey :: bigKeys).length - max_tracked_messages / 2 = 5001 := by
        simp only [List.length_cons, hlen, max_tracked_messages]
      rw [he, List.drop_succ_cons]
    rw [h]
    intro hmem
    have hmem' : newKey ∈ bigKeys := List.drop_subset 5000 bigKeys hmem
    simp only [bigKeys, newKey, List.mem_map, List.mem_range] at hmem'
    obtain ⟨i, hir, heq⟩ := hmem'
    have : (i : Int) = 10000 := (Prod.mk.injEq _ _ _ _).mp heq |>.2
    omega

/-- C4 amended: after each `remember`, the store never exceeds the capacity
`C = 10,000`; when the insertion makes it exceed `C`, it is compacted to
exactly `C/2` keys; the retained keys are always drawn from the set's
elements (old keys plus the inserted one) — but which half survives depends
on the arbitrary set-iteration order, and the key inserted in the same call
may itself be dropped. -/
theorem dedup_capacity (f : List ForwardKey) (k : ForwardKey) (enum : List ForwardKey)
    (hperm : enum.Perm (f ++ [k])) (hle : f.length ≤ max_tracked_messages) :
    (remember f k enum).length ≤ max_tracked_messages ∧
    (f.length = max_tracked_messages →
      (remember f k enum).length = max_tracked_messages / 2) ∧
    (∀ x ∈ remember f k enum, x ∈ f ++ [k]) := by
  unfold remember
  by_cases hcomp : max_tracked_messages < (f ++ [k]).length
  · rw [if_pos hcomp]
    have hel : enum.length = f.length + 1 := by
      rw [hperm.length_eq]
      simp
    have hdl : (enum.drop (enum.length - max_tracked_messages / 2)).length =
        max_tracked_messages / 2 := by
      rw [List.length_drop]
      rw [List.length_append] at hcomp
      simp [max_tracked_messages] at hcomp hle ⊢
      omega
    refine ⟨?_, fun _ => hdl, ?_⟩
    · rw [hdl]
      simp [max_tracked_messages]
    · intro x hx
      exact hperm.subset (List.drop_subset _ _ hx)
  · rw [if_neg hcomp]
    simp only [List.length_append, List.length_cons, List.length_nil] at hcomp
    refine ⟨by simp only [List.length_append, List.length_cons, List.length_nil]; omega,
      ?_, fun x hx => hx⟩
    intro hf
    exfalso
    rw [hf] at hcomp
    simp [max_tracked_messages] at hcomp

/-- Witness for C4 (amended) on a small store. -/
theorem dedup_capacity_witness :
    (remember [] ((none : Option Int), 0) [((none : Option Int), 0)]).length ≤
      max_tracked_messages ∧
    (([] : List ForwardKey).length = max_tracked_messages →
      (remember [] ((none : Option Int), 0) [((none : Option Int), 0)]).length =
        max_tracked_messages / 2) ∧
    (∀ x ∈ remember [] ((none : Option Int), 0) [((none : Option Int), 0)],
      x ∈ ([] : List ForwardKey) ++ [((none : Option Int), 0)]) :=
  dedup_capacity [] ((none : Option Int), 0) [((none : Option Int), 0)]
    (by simp) (by decide)

/-! ## Claim C5: length of the sent text -/

/-- Python `s.endswith(suffix)` on code points. -/
def strEndsWith (s suffix : String) : Bool := List.isSuffixOf suffix.data s.data

/-- The header `_forward_message` builds for a given body (its summary line
interpolates `get_match_summary`; Python prints `None` for a non-match). -/
def headerOf (kws : List String) (channelName timeStr body : String)
    (isHistorical : Bool) : String :=
  mkHeader channelName timeStr
    (match get_match_summary kws body with
     | some s => s
     | none => "None") isHistorical

theorem forward_text_eq (kws : List String) (maxLen : Nat) (cn ts body : String)
    (hist : Bool) :
    forward_text kws maxLen cn ts body hist =
      headerOf kws cn ts body hist ++
        truncate_for_security maxLen (headerOf kws cn ts body hist) body := rfl

theorem strTake_length (s : String) (n : Nat) :
    (strTake s n).length = min n s.length := by
  unfold strTake
  rw [String.length_mk, List.length_take]
  rfl

theorem strEndsWith_append_of_suffix (s t u : String) (h : u.data <:+ t.data) :
    strEndsWith (s ++ t) u = true := by
  unfold strEndsWith
  rw [List.isSuffixOf_iff_suffix, String.data_append]
  exact h.trans (List.suffix_append s.data t.data)

/-- A 500-character matching body. -/
def longBody : String := "deploy " ++ String.mk (List.replicate 493 'a')

/-- The text `_forward_message` passes to `send_message` for `longBody` with
`max_message_length = 200`, keyword `deploy`, the default channel title and
the spec's example timestamp. -/
def demoSent : String :=
  forward_text (mkKeywords ["deploy"]) 200 "Unknown Channel"
    (format_datetime 5 8 2025 17 59) longBody false

/-- Counterexample to C5 as stated: with `max_message_length = 200` and a
500-character matching body, the text passed to the platform send call is
LONGER than 200 characters and does not end with
`"[Message truncated for security]"` (the header alone exceeds the 100
characters of room, so the body is replaced by the content-hidden notice and
the header pushes the total over the cap). -/
theorem sent_length_counterexample :
    longBody.length = 500 ∧ 200 < demoSent.length ∧
      strEndsWith demoSent "[Message truncated for security]" = false ∧
      strEndsWith demoSent "[Message too long, content hidden for security]" = true := by
  refine ⟨by decide, by decide, by decide, by decide⟩

/-- C5 amended: for a long body (`len(body) > max_message_length`) the length
invariant holds only in the truncation branch: when
`len(header) + 100 < max`, the sent text has length exactly `max − 66 ≤ max`
and ends with `"[Message truncated for security]"`.  When the header leaves
no room (`max ≤ len(header) + 100`) — which always happens at
`max_message_length = 200` since the composed header is longer than 100
characters — the sent text is the header plus the 47-character content-hidden
notice, so its length is `len(header) + 47`, which may exceed `max`. -/
theorem sent_length_bound (kws : List String) (maxLen : Nat) (cn ts body : String)
    (hist : Bool) (hlong : maxLen < body.length) :
    ((headerOf kws cn ts body hist).length + 100 < maxLen →
      (forward_text kws maxLen cn ts body hist).length = maxLen - 66 ∧
      (forward_text kws maxLen cn ts body hist).length ≤ maxLen ∧
      strEndsWith (forward_text kws maxLen cn ts body hist)
        "[Message truncated for security]" = true) ∧
    (maxLen ≤ (headerOf kws cn ts body hist).length + 100 →
      (forward_text kws maxLen cn ts body hist).length =
        (headerOf kws cn ts body hist).length + 47 ∧
      strEndsWith (forward_text kws maxLen cn ts body hist)
        "[Message too long, content hidden for security]" = true) := by
  have hft := forward_text_eq kws maxLen cn ts body hist
  constructor
  · intro hroom
    have h1 : truncate_for_security maxLen (headerOf kws cn ts body hist) body =
        strTake body ((maxLen : Int) - ((headerOf kws cn ts body hist).length : Int) -
          100).toNat ++ "\n\n[Message truncated for security]" :=
      ((truncate_spec maxLen (headerOf kws cn ts body hist) body).2 hlong).1 (by omega)
    have hnotice : ("\n\n[Message truncated for security]" : String).length = 34 := by
      decide
    have htn : ((maxLen : Int) - ((headerOf kws cn ts body hist).length : Int) -
        100).toNat = maxLen - (headerOf kws cn ts body hist).length - 100 := by
      omega
    have hlen1 : (forward_text kws maxLen cn ts body hist).length = maxLen - 66 := by
      rw [hft, h1, String.length_append, String.length_append, strTake_length,
        hnotice, htn]
      omega
    refine ⟨hlen1, by omega, ?_⟩
    rw [hft, h1, ← String.append_assoc]
    exact strEndsWith_append_of_suffix _ _ _ (by decide)
  · intro hroom
    have h2 : truncate_for_security maxLen (headerOf kws cn ts body hist) body =
        "[Message too long, content hidden for security]" :=
      ((truncate_spec maxLen (headerOf kws cn ts body hist) body).2 hlong).2 (by omega)
    have hhid : ("[Message too long, content hidden for security]" : String).length = 47 := by
      decide
    constructor
    · rw [hft, h2, String.length_append, hhid]
    · rw [hft, h2]
      exact strEndsWith_append_of_suffix _ _ _ (by decide)

/-- A 1001-character matching body (for the truncation-branch witness). -/
def longBody2 : String := "deploy " ++ String.mk (List.replicate 994 'a')

/-- Witness for C5 (amended), truncation branch: `max_message_length = 1000`,
1001-character matching body, short header — sent length is `934 ≤ 1000` and
the text ends with the truncation notice. -/
theorem sent_length_bound_witness :
    (forward_text (mkKeywords ["deploy"]) 1000 "C" "T" longBody2 false).length =
      1000 - 66 ∧
    (forward_text (mkKeywords ["deploy"]) 1000 "C" "T" longBody2 false).length ≤ 1000 ∧
    strEndsWith (forward_text (mkKeywords ["deploy"]) 1000 "C" "T" longBody2 false)
      "[Message truncated for security]" = true :=
  (sent_length_bound (mkKeywords ["deploy"]) 1000 "C" "T" longBody2 false
    (by decide)).1 (by decide)

/-! ## Claim C1: at-most-once forwarding -/

theorem runAux_cons (cfg : Cfg) (s : Step) (rest : List Step) (st : ClientState)
    (acc : List LogE) :
    runAux cfg (s :: rest) st acc =
      runAux cfg rest (process_message cfg st s.msg s.oc s.now s.enum).st
        (acc ++ if (process_message cfg st s.msg s.oc s.now s.enum).invoked then
          [⟨(s.msg.channelId, s.msg.id), s.oc, s.now⟩] else []) := rfl

theorem runAux_log_prefix (cfg : Cfg) :
    ∀ (steps : List Step) (st : ClientState) (acc : List LogE),
      ∃ tl, (runAux cfg steps st acc).2 = acc ++ tl := by
  intro steps
  induction steps with
  | nil => exact fun st acc => ⟨[], by simp [runAux]⟩
  | cons s rest ih =>
    intro st acc
    rw [runAux_cons]
    obtain ⟨tl, htl⟩ := ih (process_message cfg st s.msg s.oc s.now s.enum).st
      (acc ++ if (process_message cfg st s.msg s.oc s.now s.enum).invoked then
        [⟨(s.msg.channelId, s.msg.id), s.oc, s.now⟩] else [])
    rw [htl, List.append_assoc]
    exact ⟨_, rfl⟩

theorem successKeys_append (a b : List LogE) :
    successKeys (a ++ b) = successKeys a ++ successKeys b :=
  List.filterMap_append a b _

theorem nodup_append_single (l : List ForwardKey) (a : ForwardKey)
    (h1 : l.Nodup) (h2 : a ∉ l) : (l ++ [a]).Nodup := by
  rw [List.nodup_append]
  exact ⟨h1, List.nodup_singleton a, by simpa [List.disjoint_singleton] using h2⟩

/-- Main invariant of a session run: as long as the success log stays within
the dedup capacity, the forwarded set IS the list of successfully forwarded
keys, and that list has no duplicates. -/
theorem runAux_forwarded (cfg : Cfg) :
    ∀ (steps : List Step) (st : ClientState) (acc : List LogE),
      st.forwarded_messages = successKeys acc →
      (successKeys acc).Nodup →
      (successKeys (runAux cfg steps st acc).2).length ≤ max_tracked_messages →
      (runAux cfg steps st acc).1.forwarded_messages =
        successKeys (runAux cfg steps st acc).2 ∧
      (successKeys (runAux cfg steps st acc).2).Nodup := by
  intro steps
  induction steps with
  | nil =>
    intro st acc hfwd hnd _
    exact ⟨hfwd, hnd⟩
  | cons s rest ih =>
    intro st acc hfwd hnd hcap
    rw [runAux_cons] at hcap ⊢
    rcases pm_cases cfg st s.msg s.oc s.now s.enum with ⟨heq, _⟩ | ⟨_, heq⟩ |
      ⟨_, hnot, _, _, _, hbr⟩
    · rw [heq] at hcap ⊢
      simp only [Bool.false_eq_true, if_false, List.append_nil] at hcap ⊢
      exact ih st acc hfwd hnd hcap
    · rw [heq] at hcap ⊢
      simp only [Bool.false_eq_true, if_false, List.append_nil] at hcap ⊢
      exact ih _ acc hfwd hnd hcap
    · rcases hbr with ⟨d, hoc, heq⟩ | ⟨hoc, heq⟩ | ⟨hoc, heq⟩
      · rw [heq, hoc] at hcap ⊢
        have hsk : successKeys (acc ++ [⟨(s.msg.channelId, s.msg.id), .floodWait d, s.now⟩]) =
            successKeys acc := by
          rw [successKeys_append]
          simp [successKeys, isOk]
        simp only [eq_self_iff_true, if_true] at hcap ⊢
        refine ih _ _ (by rw [hsk]; exact hfwd) (by rw [hsk]; exact hnd) ?_
        exact hcap
      · rw [heq, hoc] at hcap ⊢
        have hsk : successKeys (acc ++ [⟨(s.msg.channelId, s.msg.id), .sendErr, s.now⟩]) =
            successKeys acc := by
          rw [successKeys_append]
          simp [successKeys, isOk]
        simp only [eq_self_iff_true, if_true] at hcap ⊢
        refine ih _ _ (by rw [hsk]; exact hfwd) (by rw [hsk]; exact hnd) ?_
        exact hcap
      · rw [heq, hoc] at hcap ⊢
        have hsk : successKeys (acc ++ [⟨(s.msg.channelId, s.msg.id), .ok, s.now⟩]) =
            successKeys acc ++ [(s.msg.channelId, s.msg.id)] := by
          rw [successKeys_append]
          simp [successKeys, isOk]
        simp only [eq_self_iff_true, if_true] at hcap ⊢
        -- capacity: the new success log is a prefix of the final one
        obtain ⟨tl, htl⟩ := runAux_log_prefix cfg rest
          ⟨record_message (can_send_message st.rl s.msg.channelId s.now).2
              s.msg.channelId s.now,
            setLF st.last_forward_time s.msg.channelId s.now,
            remember st.forwarded_messages (s.msg.channelId, s.msg.id) s.enum⟩
          (acc ++ [⟨(s.msg.channelId, s.msg.id), .ok, s.now⟩])
        have hlen : (successKeys acc).length + 1 ≤ max_tracked_messages := by
          rw [htl, successKeys_append, hsk] at hcap
          rw [List.length_append] at hcap
          simp only [successKeys_append, List.length_append, List.length_cons,
            List.length_nil] at hcap
          omega
        have hrem : remember st.forwarded_messages (s.msg.channelId, s.msg.id) s.enum =
            st.forwarded_messages ++ [(s.msg.channelId, s.msg.id)] := by
          unfold remember
          rw [if_neg ?hc]
          case hc =>
            rw [List.length_append, hfwd]
            simp only [List.length_cons, List.length_nil]
            omega
        rw [hrem] at hcap ⊢
        refine ih _ _ ?_ ?_ hcap
        · rw [hsk, hfwd]
        · rw [hsk]
          refine nodup_append_single _ _ hnd ?_
          rw [← hfwd]
          exact hnot

/-- A duplicate-free list contains every key at most once. -/
theorem count_le_one_of_nodup (l : List ForwardKey) (k : ForwardKey)
    (h : l.Nodup) : l.count k ≤ 1 := by
  induction l with
  | nil => simp
  | cons a t ih =>
    rcases List.nodup_cons.mp h with ⟨hna, hnt⟩
    rw [List.count_cons]
    by_cases hk : k = a
    · subst hk
      rw [List.count_eq_zero_of_not_mem hna]
      simp
    · rw [if_neg (by simpa using fun h => hk (by rw [h]))]
      simpa using ih hnt

/-- C1 amended: in any session run in which fewer than 10,000 forwards
succeed (the dedup capacity is never reached), every dedup key is
*successfully* forwarded at most once. -/
theorem at_most_once_per_key (cfg : Cfg) (maxH maxC : Nat) (steps : List Step)
    (hcap : (successKeys (run cfg maxH maxC steps).2).length < max_tracked_messages) :
    ∀ k, (successKeys (run cfg maxH maxC steps).2).count k ≤ 1 := by
  have hrun : run cfg maxH maxC steps = runAux cfg steps (initState maxH maxC) [] := rfl
  rw [hrun] at hcap ⊢
  have h := runAux_forwarded cfg steps (initState maxH maxC) [] rfl List.nodup_nil
    (by omega)
  exact fun k => count_le_one_of_nodup _ k h.2

/-- One flood-wait failure followed by a retry of the same message. -/
def cexSteps : List Step :=
  [⟨⟨ "deploy", some 1, 7⟩, .floodWait 1, 0, []⟩,
   ⟨⟨ "deploy", some 1, 7⟩, .ok, 10, []⟩]

/-- Counterexample to C1 as stated: when the first send of a message fails
with flood-wait, the key is (deliberately) not remembered, so when the same
message appears again the forwarder `_forward_message` is invoked a second
time for the same `(source_id, message_id)` key — 2 invocations — even though
only one distinct key was ever forwarded (far below the dedup capacity). -/
theorem at_most_once_counterexample :
    (successKeys (run ⟨["deploy"], 0⟩ 10 10 cexSteps).2).length <
      max_tracked_messages ∧
    invocationsFor (run ⟨["deploy"], 0⟩ 10 10 cexSteps).2
      ((some 1 : Option Int), 7) = 2 := by
  refine ⟨by decide, by decide⟩

/-- Witness for C1 (amended): a one-step successful run. -/
theorem at_most_once_per_key_witness :
    (successKeys (run ⟨["deploy"], 0⟩ 10 10 [⟨⟨ "deploy", some 1, 7⟩, .ok, 0, []⟩]).2).length <
      max_tracked_messages ∧
    (successKeys (run ⟨["deploy"], 0⟩ 10 10
      [⟨⟨ "deploy", some 1, 7⟩, .ok, 0, []⟩]).2).count ((some 1 : Option Int), 7) ≤ 1 :=
  ⟨by decide, at_most_once_per_key ⟨["deploy"], 0⟩ 10 10
    [⟨⟨ "deploy", some 1, 7⟩, .ok, 0, []⟩] (by decide) ((some 1 : Option Int), 7)⟩

/-! ## Claim C2: two-tier rate limiting -/

/-- The trailing-window bound on the records of a run. -/
def WBound (maxH maxC : Nat) (acc : List LogE) : Prop :=
  (∀ t, wCount (gTimes acc) t ≤ maxH) ∧ (∀ c t, wCount (cTimes acc c) t ≤ maxC)

/-- A rate-limiter queue is the record history minus a stale prefix. -/
def QueueSuffix (L Q : List Int) (tprev : Int) : Prop :=
  ∃ k, k ≤ L.length ∧ Q = L.drop k ∧ ∀ x ∈ L.take k, x < tprev - 3600

/-- Run invariant tying the limiter state to the log of successful records. -/
def RLInv (maxH maxC : Nat) (acc : List LogE) (rl : RateLimiter) (tprev : Int) : Prop :=
  rl.max_per_hour = maxH ∧ rl.max_per_channel_per_hour = maxC ∧
  QueueSuffix (gTimes acc) rl.global_messages tprev ∧
  (∀ c, QueueSuffix (cTimes acc c) (lookupChannel rl.channel_messages c) tprev) ∧
  WBound maxH maxC acc

theorem queue_suffix_mono (L Q : List Int) (t t' : Int)
    (h : QueueSuffix L Q t) (hle : t ≤ t') : QueueSuffix L Q t' := by
  obtain ⟨k, hk, hQ, hst⟩ := h
  exact ⟨k, hk, hQ, fun x hx => by have := hst x hx; omega⟩

theorem queue_suffix_cleanup (L Q : List Int) (tprev τ : Int)
    (h : QueueSuffix L Q tprev) (hle : tprev ≤ τ) :
    QueueSuffix L (cleanup_old_messages Q τ) τ := by
  obtain ⟨k, hk, hQ, hst⟩ := h
  obtain ⟨k', hk', hdrop, hst'⟩ := cleanup_suffix L Q k tprev τ hk hQ hst hle
  exact ⟨k', hk', hdrop, hst'⟩

theorem gTimes_append (acc : List LogE) (e : LogE) :
    gTimes (acc ++ [e]) = gTimes acc ++ (if isOk e.oc then [e.now] else []) := by
  unfold gTimes
  rw [List.filterMap_append]
  congr 1
  rw [List.filterMap_cons]
  by_cases h : isOk e.oc
  · rw [if_pos h, if_pos h]
    rfl
  · rw [if_neg h, if_neg h]
    rfl

theorem cTimes_append (acc : List LogE) (e : LogE) (c : Int) :
    cTimes (acc ++ [e]) c =
      cTimes acc c ++ (if isOk e.oc && e.key.1 == some c then [e.now] else []) := by
  unfold cTimes
  rw [List.filterMap_append]
  congr 1
  rw [List.filterMap_cons]
  by_cases h : (isOk e.oc && e.key.1 == some c) = true
  · rw [if_pos h, if_pos h]
    rfl
  · rw [if_neg h, if_neg h]
    rfl

theorem wCount_append (ts : List Int) (x t : Int) :
    wCount (ts ++ [x]) t = wCount ts t + (if inWindow t x = true then 1 else 0) := by
  unfold wCount
  rw [List.filter_append]
  rw [List.length_append]
  congr 1
  by_cases h : inWindow t x = true
  · rw [if_pos h]
    rw [List.filter_cons_of_pos (by simpa using h)]
    rfl
  · rw [if_neg h]
    rw [List.filter_cons_of_neg (by simpa using h)]
    rfl

theorem wCount_eq_of_stale (L : List Int) (k : Nat) (t τ : Int) (hτ : τ ≤ t)
    (hstale : ∀ x ∈ L.take k, x < τ - 3600) :
    wCount L t = wCount (L.drop k) t := by
  conv_lhs => rw [← List.take_append_drop k L]
  unfold wCount
  rw [List.filter_append]
  have hnil : (L.take k).filter (inWindow t) = [] := by
    rw [List.filter_eq_nil_iff]
    intro x hx
    have := hstale x hx
    unfold inWindow
    simp only [Bool.and_eq_true, decide_eq_true_eq, not_and]
    omega
  rw [hnil]
  simp

theorem rlinv_mono (maxH maxC : Nat) (acc : List LogE) (rl : RateLimiter)
    (t t' : Int) (h : RLInv maxH maxC acc rl t) (hle : t ≤ t') :
    RLInv maxH maxC acc rl t' := by
  obtain ⟨h1, h2, h3, h4, h5⟩ := h
  exact ⟨h1, h2, queue_suffix_mono _ _ _ _ h3 hle,
    fun c => queue_suffix_mono _ _ _ _ (h4 c) hle, h5⟩

theorem rlinv_prune (maxH maxC : Nat) (acc : List LogE) (rl : RateLimiter)
    (tprev : Int) (ch : Option Int) (τ : Int)
    (h : RLInv maxH maxC acc rl tprev) (hle : tprev ≤ τ) :
    RLInv maxH maxC acc (can_send_message rl ch τ).2 τ := by
  obtain ⟨h1, h2, h3, h4, h5⟩ := h
  obtain ⟨hsm1, hsm2, hsg, hsc, _⟩ := can_send_spec rl ch τ
  refine ⟨hsm1.trans h1, hsm2.trans h2, ?_, ?_, h5⟩
  · rw [hsg]
    exact queue_suffix_cleanup _ _ _ _ h3 hle
  · intro c
    rcases hsc c with h' | h'
    · rw [h']
      exact queue_suffix_mono _ _ _ _ (h4 c) hle
    · rw [h']
      exact queue_suffix_cleanup _ _ _ _ (h4 c) hle

theorem rlinv_record (maxH maxC : Nat) (acc : List LogE) (rl : RateLimiter)
    (tprev : Int) (ch : Option Int) (mid τ : Int)
    (h : RLInv maxH maxC acc rl tprev) (hle : tprev ≤ τ)
    (hcan : (can_send_message rl ch τ).1 = true) :
    RLInv maxH maxC (acc ++ [⟨(ch, mid), .ok, τ⟩])
      (record_message (can_send_message rl ch τ).2 ch τ) τ := by
  obtain ⟨h1, h2, h3, h4, h5g, h5c⟩ := h
  obtain ⟨hsm1, hsm2, hsg, hsc, hstrue⟩ := can_send_spec rl ch τ
  obtain ⟨hglen, hchan⟩ := hstrue hcan
  obtain ⟨hrm1, hrm2, hrg, hrc_self, hrc_other⟩ :=
    record_spec (can_send_message rl ch τ).2 ch τ
  have hgt : gTimes (acc ++ [⟨(ch, mid), .ok, τ⟩]) = gTimes acc ++ [τ] := by
    rw [gTimes_append]
    rfl
  obtain ⟨k2, hk2, hdropg, hstg⟩ := queue_suffix_cleanup _ _ _ _ h3 hle
  refine ⟨hrm1.trans (hsm1.trans h1), hrm2.trans (hsm2.trans h2), ?_, ?_, ?_, ?_⟩
  · -- global queue after record
    rw [hgt, hrg, hsg]
    refine ⟨k2, ?_, ?_, ?_⟩
    · rw [List.length_append]
      simp only [List.length_cons, List.length_nil]
      omega
    · exact suffix_append_record _ _ _ τ hk2 hdropg
    · rw [List.take_append_of_le_length hk2]
      exact hstg
  · -- per-channel queues after record
    intro c
    have hct := cTimes_append acc ⟨(ch, mid), .ok, τ⟩ c
    by_cases hcs : ch = some c
    · have hco : (isOk SendOutcome.ok &&
          (((ch, mid) : ForwardKey), SendOutcome.ok, τ).1.1 == some c) = true := by
        simp [isOk, hcs]
      rw [hct]
      simp only [isOk, Bool.true_and]
      rw [show ((⟨(ch, mid), SendOutcome.ok, τ⟩ : LogE).key.1 == some c) = true by
        simp [hcs]]
      simp only [if_true]
      rw [hrc_self c hcs, (hchan c hcs).1]
      obtain ⟨kc, hkc, hdc, hstc⟩ := queue_suffix_cleanup _ _ _ _ (h4 c) hle
      refine ⟨kc, ?_, ?_, ?_⟩
      · rw [List.length_append]
        simp only [List.length_cons, List.length_nil]
        omega
      · exact suffix_append_record _ _ _ τ hkc hdc
      · rw [List.take_append_of_le_length hkc]
        exact hstc
    · rw [hct]
      simp only [isOk, Bool.true_and]
      rw [show ((⟨(ch, mid), SendOutcome.ok, τ⟩ : LogE).key.1 == some c) = false by
        simp only [beq_eq_false_iff_ne]
        exact hcs]
      simp only [Bool.false_eq_true, if_false, List.append_nil]
      rw [hrc_other c hcs]
      rcases hsc c with hq | hq
      · rw [hq]
        exact queue_suffix_mono _ _ _ _ (h4 c) hle
      · rw [hq]
        exact queue_suffix_cleanup _ _ _ _ (h4 c) hle
  · -- global window bound
    intro t
    rw [hgt, wCount_append]
    by_cases hw : inWindow t τ = true
    · rw [if_pos hw]
      have htτ : τ ≤ t := by
        unfold inWindow at hw
        simp only [Bool.and_eq_true, decide_eq_true_eq] at hw
        omega
      have hwc : wCount (gTimes acc) t = wCount ((gTimes acc).drop k2) t :=
        wCount_eq_of_stale (gTimes acc) k2 t τ htτ hstg
      have hlen : wCount ((gTimes acc).drop k2) t ≤ ((gTimes acc).drop k2).length :=
        List.length_filter_le _ _
      have hlen2 : ((gTimes acc).drop k2).length =
          (cleanup_old_messages rl.global_messages τ).length := by
        rw [hdropg]
      rw [hwc]
      omega
    · rw [if_neg hw]
      have := h5g t
      omega
  · -- per-channel window bounds
    intro c t
    have hct := cTimes_append acc ⟨(ch, mid), .ok, τ⟩ c
    by_cases hcs : ch = some c
    · rw [hct]
      simp only [isOk, Bool.true_and]
      rw [show ((⟨(ch, mid), SendOutcome.ok, τ⟩ : LogE).key.1 == some c) = true by
        simp [hcs]]
      simp only [if_true]
      rw [wCount_append]
      by_cases hw : inWindow t τ = true
      · rw [if_pos hw]
        have htτ : τ ≤ t := by
          unfold inWindow at hw
          simp only [Bool.and_eq_true, decide_eq_true_eq] at hw
          omega
        obtain ⟨kc, hkc, hdc, hstc⟩ := queue_suffix_cleanup _ _ _ _ (h4 c) hle
        have hwc : wCount (cTimes acc c) t = wCount ((cTimes acc c).drop kc) t :=
          wCount_eq_of_stale (cTimes acc c) kc t τ htτ hstc
        have hlen : wCount ((cTimes acc c).drop kc) t ≤ ((cTimes acc c).drop kc).length :=
          List.length_filter_le _ _
        have hlen2 : ((cTimes acc c).drop kc).length =
            (cleanup_old_messages (lookupChannel rl.channel_messages c) τ).length := by
          rw [hdc]
        have hclen := (hchan c hcs).2
        rw [hwc]
        omega
      · rw [if_neg hw]
        have := h5c c t
        omega
    · rw [hct]
      simp only [isOk, Bool.true_and]
      rw [show ((⟨(ch, mid), SendOutcome.ok, τ⟩ : LogE).key.1 == some c) = false by
        simp only [beq_eq_false_iff_ne]
        exact hcs]
      simp only [Bool.false_eq_true, if_false, List.append_nil]
      exact h5c c t

theorem rlinv_nonok_append (maxH maxC : Nat) (acc : List LogE) (rl : RateLimiter)
    (t : Int) (e : LogE) (hoc : isOk e.oc = false)
    (h : RLInv maxH maxC acc rl t) : RLInv maxH maxC (acc ++ [e]) rl t := by
  obtain ⟨h1, h2, h3, h4, h5g, h5c⟩ := h
  have hg : gTimes (acc ++ [e]) = gTimes acc := by
    rw [gTimes_append, hoc]
    simp
  have hc : ∀ c, cTimes (acc ++ [e]) c = cTimes acc c := by
    intro c
    rw [cTimes_append, hoc]
    simp
  refine ⟨h1, h2, by rw [hg]; exact h3, fun c => by rw [hc c]; exact h4 c, ?_, ?_⟩
  · intro t'
    rw [hg]
    exact h5g t'
  · intro c t'
    rw [hc c]
    exact h5c c t'

theorem runAux_wbound (cfg : Cfg) (maxH maxC : Nat) :
    ∀ (steps : List Step) (st : ClientState) (acc : List LogE) (tprev : Int),
      RLInv maxH maxC acc st.rl tprev → stepsChron tprev steps →
      WBound maxH maxC (runAux cfg steps st acc).2 := by
  intro steps
  induction steps with
  | nil =>
    intro st acc tprev hinv _
    exact hinv.2.2.2.2
  | cons s rest ih =>
    intro st acc tprev hinv hchron
    obtain ⟨hle, hchron2⟩ := hchron
    rw [runAux_cons]
    rcases pm_cases cfg st s.msg s.oc s.now s.enum with ⟨heq, _⟩ | ⟨_, heq⟩ |
      ⟨hcan, _, _, _, _, hbr⟩
    · rw [heq]
      simp only [Bool.false_eq_true, if_false, List.append_nil]
      exact ih st acc s.now (rlinv_mono maxH maxC acc st.rl tprev s.now hinv hle) hchron2
    · rw [heq]
      simp only [Bool.false_eq_true, if_false, List.append_nil]
      exact ih _ acc s.now
        (rlinv_prune maxH maxC acc st.rl tprev s.msg.channelId s.now hinv hle) hchron2
    · rcases hbr with ⟨d, hoc, heq⟩ | ⟨hoc, heq⟩ | ⟨hoc, heq⟩
      · rw [heq, hoc]
        simp only [eq_self_iff_true, if_true]
        refine ih _ _ s.now ?_ hchron2
        exact rlinv_nonok_append maxH maxC acc _ s.now _ rfl
          (rlinv_prune maxH maxC acc st.rl tprev s.msg.channelId s.now hinv hle)
      · rw [heq, hoc]
        simp only [eq_self_iff_true, if_true]
        refine ih _ _ s.now ?_ hchron2
        exact rlinv_nonok_append maxH maxC acc _ s.now _ rfl
          (rlinv_prune maxH maxC acc st.rl tprev s.msg.channelId s.now hinv hle)
      · rw [heq, hoc]
        simp only [eq_self_iff_true, if_true]
        refine ih _ _ s.now ?_ hchron2
        exact rlinv_record maxH maxC acc st.rl tprev s.msg.channelId s.msg.id s.now
          hinv hle hcan

theorem can_send_iff (rl : RateLimiter) (ch : Option Int) (now : Int) :
    (can_send_message rl ch now).1 = true ↔
      ((cleanup_old_messages rl.global_messages now).length < rl.max_per_hour ∧
        ∀ c, ch = some c →
          (cleanup_old_messages (lookupChannel rl.channel_messages c) now).length <
            rl.max_per_channel_per_hour) := by
  unfold can_send_message
  by_cases hg : rl.max_per_hour ≤ (cleanup_old_messages rl.global_messages now).length
  · rw [if_pos hg]
    exact iff_of_false (by simp) (fun hh => by have := hh.1; omega)
  · rw [if_neg hg]
    cases ch with
    | none =>
      exact iff_of_true rfl ⟨by omega, fun c hc => by cases hc⟩
    | some c =>
      dsimp only
      by_cases hc : rl.max_per_channel_per_hour ≤
          (cleanup_old_messages (lookupChannel rl.channel_messages c) now).length
      · rw [if_pos hc]
        exact iff_of_false (by simp) (fun hh => by have := hh.2 c rfl; omega)
      · rw [if_neg hc]
        refine iff_of_true rfl ⟨by omega, ?_⟩
        intro c0 hc0
        injection hc0 with hc0
        subst hc0
        omega

/-- C2: `can_send_message` decides exactly "pruned global count below
`max_per_hour`, and (when a source id is given) pruned per-source count below
`max_per_channel_per_hour`"; consequently, in any session whose steps are
processed in nondecreasing time order, the successful forwards lying in any
trailing 3600-second window `[t − 3600, t]` number at most `max_per_hour`
globally and at most `max_per_channel_per_hour` per source. -/
theorem rate_limit_enforcement (cfg : Cfg) (maxH maxC : Nat) (t0 : Int)
    (steps : List Step) (hchron : stepsChron t0 steps) :
    (∀ (rl : RateLimiter) (ch : Option Int) (now : Int),
      (can_send_message rl ch now).1 = true ↔
        ((cleanup_old_messages rl.global_messages now).length < rl.max_per_hour ∧
          ∀ c, ch = some c →
            (cleanup_old_messages (lookupChannel rl.channel_messages c) now).length <
              rl.max_per_channel_per_hour)) ∧
    (∀ t, wCount (gTimes (run cfg maxH maxC steps).2) t ≤ maxH) ∧
    (∀ c t, wCount (cTimes (run cfg maxH maxC steps).2 c) t ≤ maxC) := by
  have hrun : run cfg maxH maxC steps = runAux cfg steps (initState maxH maxC) [] := rfl
  have hinit : RLInv maxH maxC [] (initState maxH maxC).rl t0 := by
    refine ⟨rfl, rfl, ⟨0, by simp [gTimes], rfl, by simp [gTimes]⟩, ?_, ?_, ?_⟩
    · intro c
      exact ⟨0, by simp [cTimes], rfl, by simp [cTimes]⟩
    · intro t
      simp [gTimes, wCount]
    · intro c t
      simp [cTimes, wCount]
  have hw := runAux_wbound cfg maxH maxC steps (initState maxH maxC) [] t0 hinit hchron
  exact ⟨fun rl ch now => can_send_iff rl ch now,
    by rw [hrun]; exact hw.1, by rw [hrun]; exact hw.2⟩

/-- Witness for C2: a fresh limiter admits a send, and the one-step run's
records respect both window bounds. -/
theorem rate_limit_enforcement_witness :
    ((can_send_message ⟨1, 1, [], []⟩ none 0).1 = true ↔
      ((cleanup_old_messages ([] : List Int) 0).length < 1 ∧
        ∀ c, (none : Option Int) = some c →
          (cleanup_old_messages (lookupChannel ([] : List (Int × List Int)) c) 0).length <
            1)) ∧
    wCount (gTimes (run ⟨["deploy"], 0⟩ 1 1 [⟨⟨ "deploy", some 1, 7⟩, .ok, 0, []⟩]).2) 5 ≤ 1 ∧
    wCount (cTimes (run ⟨["deploy"], 0⟩ 1 1 [⟨⟨ "deploy", some 1, 7⟩, .ok, 0, []⟩]).2 1) 5 ≤ 1 := by
  have h := rate_limit_enforcement ⟨["deploy"], 0⟩ 1 1 0
    [⟨⟨ "deploy", some 1, 7⟩, .ok, 0, []⟩] ⟨le_refl 0, trivial⟩
  exact ⟨h.1 ⟨1, 1, [], []⟩ none 0, h.2.1 5, h.2.2 1 5⟩
